import Mathlib

set_option maxRecDepth 100000

/-!
Shallow embedding of `expression/constant_propagation.go` (constant propagation
for a SQL optimizer) together with theorems settling the frozen claims about it.

The data model mirrors the Go source: a condition is an expression node that is
either a bare column reference (identified by its per-call hash code), a literal
constant, or a binary `ScalarFunction` node carrying an operator name and two
argument expressions.  Helper utilities of the surrounding expression package
that are not part of the given source file (`SplitCNFItems`, `ExtractColumns`,
`ColumnSubstitute`, `NewFunction`, compose/split of CNF and DNF) are modelled
from the spec and marked as such in their doc comments.
-/

/-- Values carried by SQL constants: the NULL marker, booleans and integers. -/
inductive Val where
  | null : Val
  | vbool : Bool → Val
  | vint : Int → Val
deriving DecidableEq

/-- Operator names of `ScalarFunction` nodes relevant to the solver: the
comparison operators, logical OR and AND, and opaque other functions. -/
inductive FName where
  | eq : FName
  | lt : FName
  | gt : FName
  | le : FName
  | ge : FName
  | ne : FName
  | oror : FName
  | andand : FName
  | other : Nat → FName
deriving DecidableEq

/-- Expression nodes: a bare column (identified by its hash code, which the
spec guarantees to be injective within one solve call), a literal constant, or
a binary `ScalarFunction` with an operator name and two `Args`. -/
inductive Expr where
  | column : Nat → Expr
  | constant : Val → Expr
  | scalarFunc : FName → Expr → Expr → Expr
deriving DecidableEq

/-- Go source: `var MaxPropagateColsCnt = 100`, the max number of columns that
can participate in propagation. -/
def MaxPropagateColsCnt : Nat := 100

/-- Go source: `eqFuncNameMap` contains exactly `ast.EQ`. -/
def eqFuncNameMap : FName → Bool
  | .eq => true
  | _ => false

/-- Go source: `inEqFuncNameMap` contains the propagatable in-equal operators
LT, GT, LE, GE, NE. -/
def inEqFuncNameMap : FName → Bool
  | .lt => true
  | .gt => true
  | .le => true
  | .ge => true
  | .ne => true
  | _ => false

/-- The literal-false constant the solver collapses to:
`&Constant{Value: types.NewDatum(false)}`. -/
def falseConst : Expr := .constant (.vbool false)

/-- Modelled from the spec: `SplitCNFItems` (an expression utility whose source
is not under src) splits a conjunction into its flat conjuncts, recursing
through nested AND nodes; any non-AND node is a single conjunct. -/
def SplitCNFItems : Expr → List Expr
  | .scalarFunc .andand a b => SplitCNFItems a ++ SplitCNFItems b
  | e => [e]

/-- Modelled from the spec: `SplitDNFItems` splits a disjunction into its flat
disjuncts, recursing through nested OR nodes. -/
def SplitDNFItems : Expr → List Expr
  | .scalarFunc .oror a b => SplitDNFItems a ++ SplitDNFItems b
  | e => [e]

/-- Modelled from the spec: `ComposeCNFCondition` recomposes a list of
expressions into a single conjunction; a single element degenerates to itself
(no wrapping). -/
def ComposeCNFCondition : List Expr → Expr
  | [] => .constant (.vbool true)
  | [e] => e
  | e :: rest => .scalarFunc .andand e (ComposeCNFCondition rest)

/-- Modelled from the spec: `ComposeDNFCondition` recomposes a list of
expressions into a single disjunction; a single element degenerates to itself. -/
def ComposeDNFCondition : List Expr → Expr
  | [] => .constant (.vbool false)
  | [e] => e
  | e :: rest => .scalarFunc .oror e (ComposeDNFCondition rest)

/-- Modelled from the spec: `ExtractColumns` collects every column referenced
anywhere in an expression, in left-to-right tree order. -/
def ExtractColumns : Expr → List Nat
  | .column h => [h]
  | .constant _ => []
  | .scalarFunc _ a b => ExtractColumns a ++ ExtractColumns b

/-- Association-list lookup by column hash code, used by `ColumnSubstitute`. -/
def lookupCol (h : Nat) : List (Nat × Expr) → Option Expr
  | [] => none
  | p :: rest => if p.1 = h then some p.2 else lookupCol h rest

/-- Modelled from the spec: `ColumnSubstitute` rebuilds an expression with every
occurrence of each column of the schema `cols` replaced by the corresponding
expression of `cons`, anywhere in the tree (no folding is performed; the spec
delegates constant folding to an external collaborator). -/
def ColumnSubstitute (e : Expr) (cols : List Nat) (cons : List Expr) : Expr :=
  match e with
  | .column h =>
    match lookupCol h (cols.zip cons) with
    | some c => c
    | none => .column h
  | .constant v => .constant v
  | .scalarFunc n a b =>
    .scalarFunc n (ColumnSubstitute a cols cons) (ColumnSubstitute b cols cons)

/-- Modelled from the spec: `NewFunction` constructs a new binary function node
from an operator name and two argument expressions (the return-type argument of
the Go function carries no logical content and is omitted). -/
def NewFunction (name : FName) (a b : Expr) : Expr := .scalarFunc name a b

/-- State of `propagateConstantSolver`.  `colMapper` of the Go source maps a
column hash code to its dense id, which is exactly the column's position in
`columns` (ids are assigned as `len(colMapper)` at insertion); the mapper is
therefore represented by the `columns` list itself. -/
structure PCSolver where
  columns : List Nat
  conditions : List Expr
  eqList : List (Option Val)
  foreverFalse : Bool
deriving DecidableEq

/-- Go source `getColID`: the dense id of a column, i.e. its position in the
insertion-ordered column list (only ever queried for inserted columns). -/
def getColID (cols : List Nat) (h : Nat) : Nat :=
  match cols with
  | [] => 0
  | c :: rest => if c = h then 0 else getColID rest h + 1

/-- Go source `insertCol`: if the column's hash code is unseen, assign it the
next sequential id by appending it to the column list. -/
def insertCol (cols : List Nat) (h : Nat) : List Nat :=
  if h ∈ cols then cols else cols ++ [h]

/-- Go source `validPropagateCond`: checks that the condition is a binary
function whose name is in `funNameMap` and whose arguments are a bare column
and a constant, in either order, returning the column and the constant. -/
def validPropagateCond (cond : Expr) (funNameMap : FName → Bool) :
    Option (Nat × Val) :=
  match cond with
  | .scalarFunc name a b =>
    if funNameMap name then
      match a, b with
      | .column h, .constant v => some (h, v)
      | .constant v, .column h => some (h, v)
      | _, _ => none
    else none
  | _ => none

/-- Go source `tryToUpdateEQList`: binding against NULL or against a column
already bound to a different constant sets `foreverFalse` and replaces the
conditions by the single literal-false condition; a fresh binding is recorded
in `eqList` and reported with `true`. -/
def tryToUpdateEQList (s : PCSolver) (col : Nat) (con : Val) : PCSolver × Bool :=
  if con = .null then
    ({ s with foreverFalse := true, conditions := [falseConst] }, false)
  else
    let id := getColID s.columns col
    match s.eqList.getD id none with
    | some oldCon =>
      if oldCon = con then (s, false)
      else ({ s with foreverFalse := true, conditions := [falseConst] }, false)
    | none => ({ s with eqList := s.eqList.set id (some con) }, true)

/-- Loop body of `pickNewEQConds`: iterates over the snapshot of the condition
list with its index, skipping visited entries, marking matched `column =
constant` conditions visited, attempting to bind them, and returning
immediately once `foreverFalse` is set.  The Go return mapper is a map with
distinct keys; it is represented by the accumulation list in scan order. -/
def pickLoop :
    List Expr → Nat → PCSolver → List Bool → List (Nat × Val) →
      PCSolver × List Bool × List (Nat × Val)
  | [], _, s, visited, mapper => (s, visited, mapper)
  | cond :: rest, i, s, visited, mapper =>
    if visited.getD i false then
      pickLoop rest (i + 1) s visited mapper
    else
      match validPropagateCond cond eqFuncNameMap with
      | some (col, con) =>
        let visited2 := visited.set i true
        let r := tryToUpdateEQList s col con
        if r.2 then
          pickLoop rest (i + 1) r.1 visited2
            (mapper ++ [(getColID r.1.columns col, con)])
        else if r.1.foreverFalse then
          (r.1, visited2, mapper)
        else
          pickLoop rest (i + 1) r.1 visited2 mapper
      | none => pickLoop rest (i + 1) s visited mapper

/-- Go source `pickNewEQConds`. -/
def pickNewEQConds (s : PCSolver) (visited : List Bool) :
    PCSolver × List Bool × List (Nat × Val) :=
  pickLoop s.conditions 0 s visited []

/-- Substitution phase of one `propagateEQ` round: build the parallel column
and constant slices from the round's mapper and rewrite every unvisited
condition with `ColumnSubstitute`. -/
def substRound (s : PCSolver) (visited : List Bool) (mapper : List (Nat × Val)) :
    List Expr :=
  s.conditions.enum.map (fun p =>
    if visited.getD p.1 false then p.2
    else ColumnSubstitute p.2 (mapper.map (fun q => s.columns.getD q.1 0))
      (mapper.map (fun q => Expr.constant q.2)))

/-- One run of the round loop of `propagateEQ`: pick new `column = constant`
facts; stop when `foreverFalse` is set or the batch is empty; otherwise
substitute every batch binding into every unvisited condition and continue.
The loop counter `for i := 0; i < MaxPropagateColsCnt; i++` is the fuel. -/
def propagateEQLoop : Nat → PCSolver → List Bool → PCSolver
  | 0, s, _ => s
  | fuel + 1, s, visited =>
    let r := pickNewEQConds s visited
    if r.1.foreverFalse || r.2.2.isEmpty then r.1
    else
      propagateEQLoop fuel
        { r.1 with conditions := substRound r.1 r.2.1 r.2.2 } r.2.1

/-- Go source `propagateEQ`: initializes `eqList` and the visited flags and
runs the round loop. -/
def propagateEQ (s : PCSolver) : PCSolver :=
  propagateEQLoop MaxPropagateColsCnt
    { s with eqList := List.replicate s.columns.length none }
    (List.replicate s.conditions.length false)

/-- Instrumented copy of `propagateEQLoop` that also counts how many round
iterations were entered. -/
def propagateEQLoopCount : Nat → PCSolver → List Bool → PCSolver × Nat
  | 0, s, _ => (s, 0)
  | fuel + 1, s, visited =>
    let r := pickNewEQConds s visited
    if r.1.foreverFalse || r.2.2.isEmpty then (r.1, 1)
    else
      let q := propagateEQLoopCount fuel
        { r.1 with conditions := substRound r.1 r.2.1 r.2.2 } r.2.1
      (q.1, q.2 + 1)

/-- Number of rounds the equality-propagation loop executes on a solver state. -/
def propagateEQRounds (s : PCSolver) : Nat :=
  (propagateEQLoopCount MaxPropagateColsCnt
    { s with eqList := List.replicate s.columns.length none }
    (List.replicate s.conditions.length false)).2

/-- Matrix read `m[i][j]` on the `[][]bool` representation. -/
def mget (m : List (List Bool)) (i j : Nat) : Bool :=
  (m.getD i []).getD j false

/-- Matrix write `m[i][j] = b` on the `[][]bool` representation. -/
def mset (m : List (List Bool)) (i j : Nat) (b : Bool) : List (List Bool) :=
  m.set i ((m.getD i []).set j b)

/-- The all-false n-by-n matrix allocated at the start of `propagateInEQ`. -/
def mkMatrix (n : Nat) : List (List Bool) :=
  List.replicate n (List.replicate n false)

/-- Body of the first loop of `propagateInEQ` for one scanned condition: if it
is exactly a bare `columnA = columnB` comparison, set both symmetric entries of
the direct equality matrix; otherwise leave the matrix alone. -/
def directStep (cols : List Nat) (cond : Expr) (m : List (List Bool)) :
    List (List Bool) :=
  match cond with
  | .scalarFunc .eq (.column l) (.column r) =>
    mset (mset m (getColID cols l) (getColID cols r) true)
      (getColID cols r) (getColID cols l) true
  | _ => m

/-- First loop of `propagateInEQ`: scan every condition and record the bare
`columnA = columnB` comparisons in the direct equality matrix. -/
def buildDirectMatrix (cols : List Nat) :
    List Expr → List (List Bool) → List (List Bool)
  | [], m => m
  | cond :: rest, m => buildDirectMatrix cols rest (directStep cols cond m)

/-- Ascending loop combinator: `upTo f n a` applies `f 0`, then `f 1`, …,
then `f (n-1)` to `a`, mirroring `for i := 0; i < n; i++`. -/
def upTo {α : Type} (f : Nat → α → α) : Nat → α → α
  | 0, a => a
  | n + 1, a => f n (upTo f n a)

/-- Innermost Floyd-Warshall relaxation:
`if !m[i][j] { m[i][j] = m[i][k] && m[k][j] }`. -/
def fwUpdate (k i j : Nat) (m : List (List Bool)) : List (List Bool) :=
  if mget m i j then m else mset m i j (mget m i k && mget m k j)

/-- The triple-nested Floyd-Warshall relaxation of `propagateInEQ`, executed
in-place in the source and embedded as sequential matrix updates in the same
(k, i, j) order. -/
def floydWarshall (n : Nat) (m : List (List Bool)) : List (List Bool) :=
  upTo (fun k mk => upTo (fun i mi => upTo (fun j mj => fwUpdate k i j mj) n mi) n mk) n m

/-- Go expression `cond.(*ScalarFunction).FuncName.L` (only evaluated on
function nodes; the default is unreachable there). -/
def funcNameOf : Expr → FName
  | .scalarFunc n _ _ => n
  | _ => .other 0

/-- Inner loop `for to, connected := range s.transitiveMatrix[id]` of
`propagateInEQ`: for every other connected column, synthesize
`NewFunction(op, columns[to], con)`. -/
def synthFromRow (name : FName) (cols : List Nat) (id : Nat) (con : Val) :
    List Bool → Nat → List Expr
  | [], _ => []
  | connected :: rest, t =>
    (if (t != id) && connected then
      [NewFunction name (.column (cols.getD t 0)) (.constant con)]
    else []) ++ synthFromRow name cols id con rest (t + 1)

/-- Replication performed for one scanned condition of `propagateInEQ`: if it
is a valid in-equality `column op constant` (either operand order), replicate
it to every other column connected to its column in the matrix. -/
def replicateStep (cols : List Nat) (m : List (List Bool)) (cond : Expr) :
    List Expr :=
  match validPropagateCond cond inEqFuncNameMap with
  | some (col, con) =>
    synthFromRow (funcNameOf cond) cols (getColID cols col) con
      (m.getD (getColID cols col) []) 0
  | none => []

/-- Scan loop of `propagateInEQ` over the first `condsLen` conditions (the
length captured before any append): the first list is the scanned snapshot,
the second the live condition list receiving the appends. -/
def inEQScan (cols : List Nat) (m : List (List Bool)) :
    List Expr → List Expr → List Expr
  | [], out => out
  | cond :: rest, out => inEQScan cols m rest (out ++ replicateStep cols m cond)

/-- The direct-equality matrix `propagateInEQ` builds from the solver's current
condition list. -/
def directMatrixOf (s : PCSolver) : List (List Bool) :=
  buildDirectMatrix s.columns s.conditions (mkMatrix s.columns.length)

/-- The transitive matrix of `propagateInEQ` after the Floyd-Warshall pass. -/
def transitiveMatrixOf (s : PCSolver) : List (List Bool) :=
  floydWarshall s.columns.length (directMatrixOf s)

/-- Go source `propagateInEQ`: build the matrix, close it transitively, and
replicate every valid in-equality condition across equivalent columns,
scanning only the snapshot length captured before the appends. -/
def propagateInEQ (s : PCSolver) : PCSolver :=
  { s with conditions :=
      inEQScan s.columns (transitiveMatrixOf s) s.conditions s.conditions }

/-- Flattening of the input conditions into conjuncts performed at the top of
`solve`: `s.conditions = append(s.conditions, SplitCNFItems(cond)...)`. -/
def flattenConds (conditions : List Expr) : List Expr :=
  conditions.flatMap SplitCNFItems

/-- Column collection and indexing performed at the top of `solve`: extract
the columns of every input condition and insert them in order. -/
def buildColumns (conditions : List Expr) : List Nat :=
  (conditions.flatMap ExtractColumns).foldl insertCol []

/-- Solver state right after the flattening and column-indexing prologue of
`solve`. -/
def initSolver (conditions : List Expr) : PCSolver :=
  { columns := buildColumns conditions
    conditions := flattenConds conditions
    eqList := []
    foreverFalse := false }

/-- Test `dnf, ok := cond.(*ScalarFunction); ok && dnf.FuncName.L == ast.OrOr`. -/
def isOrCond : Expr → Bool
  | .scalarFunc .oror _ _ => true
  | _ => false

/-- Final loop of `solve`: every condition that is a disjunction is replaced in
place by the recomposed disjunction of its disjuncts, each disjunct rewritten
by an independent solver run (`branchSolve`) on that disjunct alone. -/
def dnfPass (branchSolve : Expr → List Expr) (conds : List Expr) : List Expr :=
  conds.map (fun cond =>
    if isOrCond cond then
      ComposeDNFCondition ((SplitDNFItems cond).map
        (fun item => ComposeCNFCondition (branchSolve item)))
    else cond)

/-- Size of an expression node, used as recursion fuel for the nested
disjunct solves. -/
def sizeE : Expr → Nat
  | .column _ => 1
  | .constant _ => 1
  | .scalarFunc _ a b => 1 + sizeE a + sizeE b

/-- Total size of a condition list. -/
def sizeList (l : List Expr) : Nat := (l.map sizeE).sum

/-- Go source `solve`, with the recursion through disjuncts made total by a
fuel argument (the fuel is irrelevant whenever it exceeds the total input
size, see the stability lemma below): flatten, index columns, fall back to the
unchanged input above the column cap, then run equality propagation,
in-equality replication and the disjunction pass in that order. -/
def solveFuel : Nat → List Expr → List Expr
  | 0, conditions => conditions
  | fuel + 1, conditions =>
    if (buildColumns conditions).length > MaxPropagateColsCnt then conditions
    else
      dnfPass (fun item => solveFuel fuel [item])
        (propagateInEQ (propagateEQ (initSolver conditions))).conditions

/-- Go source `PropagateConstant`: runs a fresh solver on the conditions. -/
def PropagateConstant (conditions : List Expr) : List Expr :=
  solveFuel (sizeList conditions + 1) conditions

/-- Modelled from the spec: truth of a condition under a valuation of the
columns, used to state soundness (an integer comparison is true when it holds,
and any comparison involving NULL or an opaque operand is not true, matching
SQL three-valued logic collapsed to is-true). -/
def evalCmp (name : FName) (x y : Val) : Bool :=
  match x, y with
  | .vint a, .vint b =>
    match name with
    | .eq => a == b
    | .lt => a < b
    | .gt => b < a
    | .le => a ≤ b
    | .ge => b ≤ a
    | .ne => a != b
    | _ => false
  | _, _ => false

/-- Modelled from the spec: the value of an operand expression under a
valuation (opaque function operands evaluate to NULL). -/
def valOf (ρ : Nat → Val) : Expr → Val
  | .column h => ρ h
  | .constant v => v
  | .scalarFunc _ _ _ => .null

/-- Modelled from the spec: a condition holds under a valuation. -/
def condHolds (ρ : Nat → Val) : Expr → Bool
  | .scalarFunc .andand a b => condHolds ρ a && condHolds ρ b
  | .scalarFunc .oror a b => condHolds ρ a || condHolds ρ b
  | .scalarFunc name a b => evalCmp name (valOf ρ a) (valOf ρ b)
  | .column h => match ρ h with | .vbool b => b | _ => false
  | .constant v => match v with | .vbool b => b | _ => false

/-- Every element of `cons` used by the equality-propagation substitution is a
literal constant. -/
def allConst (cons : List Expr) : Prop := ∀ c ∈ cons, ∃ v, c = Expr.constant v

/-- Number of unbound entries of the equality-binding table. -/
def noneCount (l : List (Option Val)) : Nat := l.countP (fun o => o.isNone)

/-- An n-by-n boolean matrix in the nested-list representation. -/
def isSquare (m : List (List Bool)) (n : Nat) : Prop :=
  m.length = n ∧ ∀ row ∈ m, row.length = n

/-! Basic lemmas about list reads and writes. -/

theorem getD_set_self {α : Type} (l : List α) (i : Nat) (v d : α)
    (h : i < l.length) : (l.set i v).getD i d = v := by
  induction l generalizing i with
  | nil => simp at h
  | cons a t ih =>
    cases i with
    | zero => simp
    | succ n => simpa using ih n (by simpa using h)

theorem getD_set_ne {α : Type} (l : List α) (i j : Nat) (v d : α)
    (h : i ≠ j) : (l.set i v).getD j d = l.getD j d := by
  induction l generalizing i j with
  | nil => simp
  | cons a t ih =>
    cases i with
    | zero => cases j with
      | zero => exact absurd rfl h
      | succ m => simp
    | succ n => cases j with
      | zero => simp
      | succ m => simpa using ih n m (by omega)

theorem getColID_lt (cols : List Nat) (h : Nat) (hm : h ∈ cols) :
    getColID cols h < cols.length := by
  induction cols with
  | nil => simp at hm
  | cons c rest ih =>
    by_cases hc : c = h
    · simp [getColID, hc]
    · rcases List.mem_cons.mp hm with h1 | h2
      · exact absurd h1.symm hc
      · simpa [getColID, hc] using ih h2

theorem getD_getColID (cols : List Nat) (h : Nat) (hm : h ∈ cols) :
    cols.getD (getColID cols h) 0 = h := by
  induction cols with
  | nil => simp at hm
  | cons c rest ih =>
    by_cases hc : c = h
    · simp [getColID, hc]
    · rcases List.mem_cons.mp hm with h1 | h2
      · exact absurd h1.symm hc
      · simpa [getColID, hc] using ih h2

theorem mem_insertCol (cols : List Nat) (h a : Nat) :
    a ∈ insertCol cols h ↔ a ∈ cols ∨ a = h := by
  unfold insertCol
  split
  · constructor
    · exact fun ha => Or.inl ha
    · rintro (ha | rfl)
      · exact ha
      · assumption
  · simp

theorem nodup_insertCol (cols : List Nat) (h : Nat) (hnd : cols.Nodup) :
    (insertCol cols h).Nodup := by
  unfold insertCol
  split
  · exact hnd
  · next hni => simpa [List.nodup_append, hnd] using hni

theorem foldl_insertCol_mem (l : List Nat) :
    ∀ acc a, a ∈ List.foldl insertCol acc l ↔ a ∈ acc ∨ a ∈ l := by
  induction l with
  | nil => simp
  | cons x t ih =>
    intro acc a
    rw [List.foldl_cons, ih, mem_insertCol]
    constructor
    · rintro ((ha | rfl) | ha)
      · exact Or.inl ha
      · exact Or.inr (List.mem_cons_self _ _)
      · exact Or.inr (List.mem_cons_of_mem _ ha)
    · rintro (ha | ha)
      · exact Or.inl (Or.inl ha)
      · rcases List.mem_cons.mp ha with rfl | hmem
        · exact Or.inl (Or.inr rfl)
        · exact Or.inr hmem

theorem nodup_foldl_insertCol (l : List Nat) :
    ∀ acc, acc.Nodup → (List.foldl insertCol acc l).Nodup := by
  induction l with
  | nil => intro acc h; simpa using h
  | cons x t ih =>
    intro acc h
    exact ih _ (nodup_insertCol _ _ h)

theorem buildColumns_mem (conds : List Expr) (a : Nat) :
    a ∈ buildColumns conds ↔ a ∈ conds.flatMap ExtractColumns := by
  unfold buildColumns
  rw [foldl_insertCol_mem]
  simp

theorem buildColumns_nodup (conds : List Expr) : (buildColumns conds).Nodup :=
  nodup_foldl_insertCol _ _ List.nodup_nil

/-! Size lemmas. -/

theorem sizeE_pos (e : Expr) : 1 ≤ sizeE e := by
  cases e with
  | column h => simp [sizeE]
  | constant v => simp [sizeE]
  | scalarFunc n a b => simp [sizeE]; omega

theorem sizeList_append (l1 l2 : List Expr) :
    sizeList (l1 ++ l2) = sizeList l1 + sizeList l2 := by
  simp [sizeList]

theorem sizeList_singleton (e : Expr) : sizeList [e] = sizeE e := by
  simp [sizeList]

theorem mem_sizeE_le (l : List Expr) (c : Expr) (hc : c ∈ l) :
    sizeE c ≤ sizeList l := by
  induction l with
  | nil => simp at hc
  | cons x t ih =>
    rcases List.mem_cons.mp hc with rfl | hmem
    · simp [sizeList]
    · have := ih hmem
      simp only [sizeList, List.map_cons, List.sum_cons] at *
      omega

theorem sizeList_splitCNF (e : Expr) : sizeList (SplitCNFItems e) ≤ sizeE e := by
  induction e with
  | column h => simp [SplitCNFItems, sizeList, sizeE]
  | constant v => simp [SplitCNFItems, sizeList, sizeE]
  | scalarFunc n a b iha ihb =>
    cases n with
    | andand =>
      rw [show SplitCNFItems (.scalarFunc .andand a b) =
        SplitCNFItems a ++ SplitCNFItems b from rfl, sizeList_append]
      simp only [sizeE]
      omega
    | eq => simp [SplitCNFItems, sizeList]
    | lt => simp [SplitCNFItems, sizeList]
    | gt => simp [SplitCNFItems, sizeList]
    | le => simp [SplitCNFItems, sizeList]
    | ge => simp [SplitCNFItems, sizeList]
    | ne => simp [SplitCNFItems, sizeList]
    | oror => simp [SplitCNFItems, sizeList]
    | other k => simp [SplitCNFItems, sizeList]

theorem sizeList_flattenConds (conds : List Expr) :
    sizeList (flattenConds conds) ≤ sizeList conds := by
  induction conds with
  | nil => simp [flattenConds, sizeList]
  | cons c t ih =>
    have h1 : flattenConds (c :: t) = SplitCNFItems c ++ flattenConds t := by
      simp [flattenConds]
    rw [h1, sizeList_append]
    have h2 := sizeList_splitCNF c
    simp only [sizeList, List.map_cons, List.sum_cons] at *
    omega

theorem mem_splitDNF_sizeE_le (e item : Expr) (hi : item ∈ SplitDNFItems e) :
    sizeE item ≤ sizeE e := by
  induction e with
  | column h => simp [SplitDNFItems] at hi; simp [hi]
  | constant v => simp [SplitDNFItems] at hi; simp [hi]
  | scalarFunc n a b iha ihb =>
    cases n with
    | oror =>
      rw [show SplitDNFItems (.scalarFunc .oror a b) =
        SplitDNFItems a ++ SplitDNFItems b from rfl] at hi
      rcases List.mem_append.mp hi with hm | hm
      · have := iha hm; simp only [sizeE]; omega
      · have := ihb hm; simp only [sizeE]; omega
    | eq => simp [SplitDNFItems] at hi; simp [hi]
    | lt => simp [SplitDNFItems] at hi; simp [hi]
    | gt => simp [SplitDNFItems] at hi; simp [hi]
    | le => simp [SplitDNFItems] at hi; simp [hi]
    | ge => simp [SplitDNFItems] at hi; simp [hi]
    | ne => simp [SplitDNFItems] at hi; simp [hi]
    | andand => simp [SplitDNFItems] at hi; simp [hi]
    | other k => simp [SplitDNFItems] at hi; simp [hi]

/-! Column-extraction and substitution lemmas. -/

theorem mem_extract_of_splitCNF (e c : Expr) (hc : c ∈ SplitCNFItems e)
    (h : Nat) (hh : h ∈ ExtractColumns c) : h ∈ ExtractColumns e := by
  induction e with
  | column k => simp [SplitCNFItems] at hc; subst hc; exact hh
  | constant v => simp [SplitCNFItems] at hc; subst hc; exact hh
  | scalarFunc n a b iha ihb =>
    cases n with
    | andand =>
      rw [show SplitCNFItems (.scalarFunc .andand a b) =
        SplitCNFItems a ++ SplitCNFItems b from rfl] at hc
      rcases List.mem_append.mp hc with hm | hm
      · exact List.mem_append.mpr (Or.inl (iha hm))
      · exact List.mem_append.mpr (Or.inr (ihb hm))
    | eq => simp [SplitCNFItems] at hc; subst hc; exact hh
    | lt => simp [SplitCNFItems] at hc; subst hc; exact hh
    | gt => simp [SplitCNFItems] at hc; subst hc; exact hh
    | le => simp [SplitCNFItems] at hc; subst hc; exact hh
    | ge => simp [SplitCNFItems] at hc; subst hc; exact hh
    | ne => simp [SplitCNFItems] at hc; subst hc; exact hh
    | oror => simp [SplitCNFItems] at hc; subst hc; exact hh
    | other k => simp [SplitCNFItems] at hc; subst hc; exact hh

theorem validPropagateCond_col_mem (cond : Expr) (m : FName → Bool)
    (col : Nat) (con : Val) (hv : validPropagateCond cond m = some (col, con)) :
    col ∈ ExtractColumns cond := by
  unfold validPropagateCond at hv
  split at hv
  · next name a b =>
    split at hv
    · match a, b, hv with
      | .column h, .constant v, hv =>
        simp at hv
        simp [ExtractColumns, hv.1]
      | .constant v, .column h, hv =>
        simp at hv
        simp [ExtractColumns, hv.1]
    · exact absurd hv (by simp)
  · exact absurd hv (by simp)


theorem lookupCol_mem (h : Nat) (ps : List (Nat × Expr)) (c : Expr)
    (hl : lookupCol h ps = some c) : ∃ p ∈ ps, p.2 = c := by
  induction ps with
  | nil => simp [lookupCol] at hl
  | cons p rest ih =>
    unfold lookupCol at hl
    split at hl
    · exact ⟨p, List.mem_cons_self _ _, by injection hl⟩
    · rcases ih hl with ⟨q, hq, hc⟩
      exact ⟨q, List.mem_cons_of_mem _ hq, hc⟩

theorem lookupCol_zip_const (h : Nat) (cols : List Nat) (cons : List Expr)
    (hall : allConst cons) (c : Expr) (hl : lookupCol h (cols.zip cons) = some c) :
    ∃ v, c = Expr.constant v := by
  rcases lookupCol_mem h _ c hl with ⟨p, hp, hc⟩
  rcases hall p.2 (List.of_mem_zip hp).2 with ⟨v, hv⟩
  exact ⟨v, hc ▸ hv⟩

theorem sizeE_columnSubstitute (e : Expr) (cols : List Nat) (cons : List Expr)
    (hall : allConst cons) : sizeE (ColumnSubstitute e cols cons) = sizeE e := by
  induction e with
  | column h =>
    unfold ColumnSubstitute
    split
    · next c hl =>
      rcases lookupCol_zip_const h cols cons hall c hl with ⟨v, rfl⟩
      simp [sizeE]
    · simp
  | constant v => simp [ColumnSubstitute]
  | scalarFunc n a b iha ihb => simp [ColumnSubstitute, sizeE, iha, ihb]

theorem extract_columnSubstitute (e : Expr) (cols : List Nat) (cons : List Expr)
    (hall : allConst cons) (h : Nat)
    (hh : h ∈ ExtractColumns (ColumnSubstitute e cols cons)) :
    h ∈ ExtractColumns e := by
  induction e with
  | column k =>
    unfold ColumnSubstitute at hh
    split at hh
    · next c hl =>
      rcases lookupCol_zip_const k cols cons hall c hl with ⟨v, rfl⟩
      simp [ExtractColumns] at hh
    · exact hh
  | constant v => simpa [ColumnSubstitute] using hh
  | scalarFunc n a b iha ihb =>
    simp only [ColumnSubstitute, ExtractColumns] at hh ⊢
    rcases List.mem_append.mp hh with hm | hm
    · exact List.mem_append.mpr (Or.inl (iha hm))
    · exact List.mem_append.mpr (Or.inr (ihb hm))

/-! Invariants of the equality-propagation primitives. -/


theorem noneCount_set_some (l : List (Option Val)) (i : Nat) (v : Val)
    (hi : i < l.length) (hn : l.getD i none = none) :
    noneCount (l.set i (some v)) + 1 = noneCount l := by
  induction l generalizing i with
  | nil => simp at hi
  | cons a t ih =>
    cases i with
    | zero =>
      have ha : a = none := by simpa using hn
      subst ha
      simp [noneCount, List.countP_cons]
    | succ n =>
      have h1 := ih n (by simpa using hi) (by simpa using hn)
      simp only [List.set_cons_succ, noneCount, List.countP_cons] at *
      omega

theorem tryToUpdateEQList_spec (s : PCSolver) (col : Nat) (con : Val)
    (hff : s.foreverFalse = false) :
    (tryToUpdateEQList s col con).1.columns = s.columns ∧
    (tryToUpdateEQList s col con).1.eqList.length = s.eqList.length ∧
    ((tryToUpdateEQList s col con).1.foreverFalse = true →
      (tryToUpdateEQList s col con).1.conditions = [falseConst]) ∧
    ((tryToUpdateEQList s col con).1.foreverFalse = false →
      (tryToUpdateEQList s col con).1.conditions = s.conditions) ∧
    ((tryToUpdateEQList s col con).2 = true →
      (tryToUpdateEQList s col con).1.foreverFalse = false ∧
      s.eqList.getD (getColID s.columns col) none = none ∧
      (tryToUpdateEQList s col con).1.eqList =
        s.eqList.set (getColID s.columns col) (some con)) ∧
    ((tryToUpdateEQList s col con).2 = false →
      (tryToUpdateEQList s col con).1.eqList = s.eqList) := by
  unfold tryToUpdateEQList
  split
  · simp [hff]
  · dsimp only
    split
    · next oldCon hold =>
      split
      · simp [hff]
      · simp [hff]
    · next hold =>
      have hold2 : s.eqList[getColID s.columns col]?.getD none = none := by
        simpa using hold
      simp [hff, hold2]

theorem pickLoop_spec (list : List Expr) :
    ∀ (i : Nat) (s : PCSolver) (visited : List Bool) (mapper : List (Nat × Val)),
    s.foreverFalse = false →
    (pickLoop list i s visited mapper).1.columns = s.columns ∧
    (pickLoop list i s visited mapper).1.eqList.length = s.eqList.length ∧
    ((pickLoop list i s visited mapper).1.foreverFalse = true →
      (pickLoop list i s visited mapper).1.conditions = [falseConst]) ∧
    ((pickLoop list i s visited mapper).1.foreverFalse = false →
      (pickLoop list i s visited mapper).1.conditions = s.conditions) := by
  induction list with
  | nil =>
    intro i s visited mapper hff
    simp [pickLoop, hff]
  | cons cond rest ih =>
    intro i s visited mapper hff
    by_cases hv : visited.getD i false
    · simpa only [pickLoop, hv, if_true] using ih (i + 1) s visited mapper hff
    · cases hvc : validPropagateCond cond eqFuncNameMap with
      | none =>
        simpa only [pickLoop, hv, Bool.false_eq_true, if_false, hvc]
          using ih (i + 1) s visited mapper hff
      | some p =>
        obtain ⟨col, con⟩ := p
        have hspec := tryToUpdateEQList_spec s col con hff
        by_cases hok : (tryToUpdateEQList s col con).2 = true
        · have hff1 := (hspec.2.2.2.2.1 hok).1
          have hconds1 := hspec.2.2.2.1 hff1
          have h2 := ih (i + 1) (tryToUpdateEQList s col con).1 (visited.set i true)
            (mapper ++ [(getColID (tryToUpdateEQList s col con).1.columns col, con)]) hff1
          simp only [pickLoop, hv, Bool.false_eq_true, if_false, hvc, hok, if_true]
          refine ⟨h2.1.trans hspec.1, h2.2.1.trans hspec.2.1, h2.2.2.1, fun hf => ?_⟩
          exact (h2.2.2.2 hf).trans hconds1
        · have hok' : (tryToUpdateEQList s col con).2 = false := by
            simpa using hok
          by_cases hf1 : (tryToUpdateEQList s col con).1.foreverFalse = true
          · simp only [pickLoop, hv, Bool.false_eq_true, if_false, hvc, hok',
              hf1, if_true]
            refine ⟨hspec.1, (congrArg List.length (hspec.2.2.2.2.2 hok')), ?_, ?_⟩
            · intro _; exact hspec.2.2.1 hf1
            · intro hc; exact absurd hc (by simp)
          · have hff1 : (tryToUpdateEQList s col con).1.foreverFalse = false := by
              simpa using hf1
            have hconds1 := hspec.2.2.2.1 hff1
            have h2 := ih (i + 1) (tryToUpdateEQList s col con).1 (visited.set i true)
              mapper hff1
            simp only [pickLoop, hv, Bool.false_eq_true, if_false, hvc, hok',
              hf1]
            refine ⟨h2.1.trans hspec.1,
              h2.2.1.trans (congrArg List.length (hspec.2.2.2.2.2 hok')),
              h2.2.2.1, fun hf => (h2.2.2.2 hf).trans hconds1⟩

theorem mem_substRound (s : PCSolver) (visited : List Bool)
    (mapper : List (Nat × Val)) (c : Expr)
    (hc : c ∈ substRound s visited mapper) :
    ∃ c0 ∈ s.conditions, sizeE c = sizeE c0 ∧
      ∀ h ∈ ExtractColumns c, h ∈ ExtractColumns c0 := by
  have hall : allConst (mapper.map (fun q => Expr.constant q.2)) := by
    intro x hx
    rcases List.mem_map.mp hx with ⟨q, _, rfl⟩
    exact ⟨q.2, rfl⟩
  rcases List.mem_map.mp hc with ⟨p, hp, heq⟩
  refine ⟨p.2, List.snd_mem_of_mem_enum hp, ?_⟩
  by_cases hv : visited.getD p.1 false
  · rw [if_pos hv] at heq
    subst heq
    exact ⟨rfl, fun h hh => hh⟩
  · rw [if_neg hv] at heq
    subst heq
    exact ⟨sizeE_columnSubstitute _ _ _ hall,
      fun h hh => extract_columnSubstitute _ _ _ hall h hh⟩

theorem propagateEQLoop_spec (fuel : Nat) :
    ∀ (s : PCSolver) (visited : List Bool), s.foreverFalse = false →
    (propagateEQLoop fuel s visited).columns = s.columns ∧
    ((propagateEQLoop fuel s visited).foreverFalse = true →
      (propagateEQLoop fuel s visited).conditions = [falseConst]) ∧
    (∀ c ∈ (propagateEQLoop fuel s visited).conditions,
      c = falseConst ∨ ∃ c0 ∈ s.conditions, sizeE c = sizeE c0 ∧
        ∀ h ∈ ExtractColumns c, h ∈ ExtractColumns c0) := by
  induction fuel with
  | zero =>
    intro s visited hff
    refine ⟨rfl, fun h => ?_, fun c hc => Or.inr ⟨c, hc, rfl, fun h hh => hh⟩⟩
    rw [propagateEQLoop] at h
    rw [propagateEQLoop]
    rw [hff] at h
    exact absurd h (by simp)
  | succ fuel ih =>
    intro s visited hff
    have hpick : (pickNewEQConds s visited).1.columns = s.columns ∧
        (pickNewEQConds s visited).1.eqList.length = s.eqList.length ∧
        ((pickNewEQConds s visited).1.foreverFalse = true →
          (pickNewEQConds s visited).1.conditions = [falseConst]) ∧
        ((pickNewEQConds s visited).1.foreverFalse = false →
          (pickNewEQConds s visited).1.conditions = s.conditions) :=
      pickLoop_spec s.conditions 0 s visited [] hff
    by_cases hstop : ((pickNewEQConds s visited).1.foreverFalse ||
        (pickNewEQConds s visited).2.2.isEmpty) = true
    · have hrw : propagateEQLoop (fuel + 1) s visited =
          (pickNewEQConds s visited).1 := by
        rw [propagateEQLoop, hstop]
        simp
      rw [hrw]
      refine ⟨hpick.1, fun h => hpick.2.2.1 h, fun c hc => ?_⟩
      by_cases hf : (pickNewEQConds s visited).1.foreverFalse = true
      · rw [hpick.2.2.1 hf] at hc
        simp at hc
        exact Or.inl hc
      · rw [hpick.2.2.2 (by simpa using hf)] at hc
        exact Or.inr ⟨c, hc, rfl, fun h hh => hh⟩
    · have hstopb : ((pickNewEQConds s visited).1.foreverFalse ||
          (pickNewEQConds s visited).2.2.isEmpty) = false := by
        simpa using hstop
      have hstop1 : (pickNewEQConds s visited).1.foreverFalse = false :=
        (Bool.or_eq_false_iff.mp hstopb).1
      have hrw : propagateEQLoop (fuel + 1) s visited =
          propagateEQLoop fuel
            { (pickNewEQConds s visited).1 with
                conditions := (substRound (pickNewEQConds s visited).1
                  (pickNewEQConds s visited).2.1 (pickNewEQConds s visited).2.2) }
            (pickNewEQConds s visited).2.1 := by
        rw [propagateEQLoop, hstopb]
        simp
      rw [hrw]
      have hrec := ih
        { (pickNewEQConds s visited).1 with
            conditions := (substRound (pickNewEQConds s visited).1
              (pickNewEQConds s visited).2.1 (pickNewEQConds s visited).2.2) }
        (pickNewEQConds s visited).2.1 hstop1
      refine ⟨hrec.1.trans hpick.1, hrec.2.1, fun c hc => ?_⟩
      rcases hrec.2.2 c hc with hcf | ⟨c1, hc1, hsz, hex⟩
      · exact Or.inl hcf
      · rcases mem_substRound _ _ _ c1 hc1 with ⟨c0, hc0, hsz0, hex0⟩
        rw [hpick.2.2.2 hstop1] at hc0
        exact Or.inr ⟨c0, hc0, hsz.trans hsz0, fun h hh => hex0 h (hex h hh)⟩

theorem propagateEQ_spec (s : PCSolver) (hff : s.foreverFalse = false) :
    (propagateEQ s).columns = s.columns ∧
    ((propagateEQ s).foreverFalse = true →
      (propagateEQ s).conditions = [falseConst]) ∧
    (∀ c ∈ (propagateEQ s).conditions,
      c = falseConst ∨ ∃ c0 ∈ s.conditions, sizeE c = sizeE c0 ∧
        ∀ h ∈ ExtractColumns c, h ∈ ExtractColumns c0) := by
  unfold propagateEQ
  exact propagateEQLoop_spec MaxPropagateColsCnt
    { s with eqList := List.replicate s.columns.length none }
    (List.replicate s.conditions.length false) hff

/-! Matrix lemmas. -/

theorem getD_len_le {α : Type} (l : List α) (i : Nat) (d : α)
    (h : l.length ≤ i) : l.getD i d = d := by
  induction l generalizing i with
  | nil => simp
  | cons a t ih =>
    cases i with
    | zero => simp at h
    | succ n => simpa using ih n (by simpa using h)


theorem mem_of_mem_set {α : Type} (l : List α) (i : Nat) (v x : α)
    (hx : x ∈ l.set i v) : x ∈ l ∨ x = v := by
  induction l generalizing i with
  | nil => simp at hx
  | cons a t ih =>
    cases i with
    | zero =>
      rcases List.mem_cons.mp hx with rfl | hm
      · exact Or.inr rfl
      · exact Or.inl (List.mem_cons_of_mem _ hm)
    | succ n =>
      rcases List.mem_cons.mp hx with rfl | hm
      · exact Or.inl (List.mem_cons_self _ _)
      · rcases ih n hm with hm2 | hv
        · exact Or.inl (List.mem_cons_of_mem _ hm2)
        · exact Or.inr hv

theorem isSquare_mkMatrix (n : Nat) : isSquare (mkMatrix n) n := by
  constructor
  · simp [mkMatrix]
  · intro row hrow
    rcases List.eq_of_mem_replicate hrow with rfl
    simp

theorem isSquare_mset (m : List (List Bool)) (n i j : Nat) (b : Bool)
    (hsq : isSquare m n) : isSquare (mset m i j b) n := by
  constructor
  · simpa [mset] using hsq.1
  · intro row hrow
    by_cases hi : i < m.length
    · rcases mem_of_mem_set _ _ _ _ hrow with hm | rfl
      · exact hsq.2 row hm
      · have hmem : m.getD i [] ∈ m := by
          rw [List.getD_eq_getElem?_getD, List.getElem?_eq_getElem hi]
          exact List.getElem_mem _
        have hlen := hsq.2 _ hmem
        simpa using hlen
    · rw [show mset m i j b = m from by
        unfold mset
        exact List.set_eq_of_length_le (by omega)] at hrow
      exact hsq.2 row hrow

theorem mget_mkMatrix (n i j : Nat) : mget (mkMatrix n) i j = false := by
  unfold mget mkMatrix
  by_cases hi : i < n
  · have h1 : (List.replicate n (List.replicate n false)).getD i [] =
        List.replicate n false := by
      rw [List.getD_eq_getElem?_getD, List.getElem?_replicate]
      simp [hi]
    rw [h1]
    by_cases hj : j < n
    · rw [List.getD_eq_getElem?_getD, List.getElem?_replicate]
      simp [hj]
    · exact getD_len_le _ _ _ (by simpa using Nat.le_of_not_lt hj)
  · have h1 : (List.replicate n (List.replicate n false)).getD i [] = [] :=
      getD_len_le _ _ _ (by simpa using Nat.le_of_not_lt hi)
    rw [h1]
    simp

theorem mget_mset_self (m : List (List Bool)) (i j : Nat) (b : Bool)
    (hi : i < m.length) (hj : j < (m.getD i []).length) :
    mget (mset m i j b) i j = b := by
  unfold mget mset
  rw [getD_set_self _ _ _ _ (by simpa using hi)]
  exact getD_set_self _ _ _ _ hj

theorem mget_mset_of_ne (m : List (List Bool)) (i j a c : Nat) (b : Bool)
    (hne : a ≠ i ∨ c ≠ j) : mget (mset m a c b) i j = mget m i j := by
  unfold mget mset
  rcases hne with hne | hne
  · rw [getD_set_ne _ _ _ _ _ hne]
  · by_cases hai : a = i
    · subst hai
      by_cases hlt : a < m.length
      · rw [getD_set_self _ _ _ _ (by simpa using hlt)]
        exact getD_set_ne _ _ _ _ _ hne
      · rw [List.set_eq_of_length_le (by omega)]
    · rw [getD_set_ne _ _ _ _ _ hai]

theorem mget_mset_true_cases (m : List (List Bool)) (i j a c : Nat)
    (h : mget (mset m a c true) i j = true) :
    mget m i j = true ∨ (i = a ∧ j = c) := by
  by_cases hia : i = a
  · by_cases hjc : j = c
    · exact Or.inr ⟨hia, hjc⟩
    · subst hia
      rw [mget_mset_of_ne m i j i c true (Or.inr (fun hc => hjc hc.symm))] at h
      exact Or.inl h
  · rw [mget_mset_of_ne m i j a c true (Or.inl (fun hc => hia hc.symm))] at h
    exact Or.inl h

theorem mget_mset_true_mono (m : List (List Bool)) (i j a c : Nat)
    (h : mget m i j = true) : mget (mset m a c true) i j = true := by
  by_cases hia : i = a
  · by_cases hjc : j = c
    · subst hia; subst hjc
      by_cases hi : i < m.length
      · by_cases hj : j < (m.getD i []).length
        · exact mget_mset_self m i j true hi hj
        · have hf : mget m i j = false := by
            unfold mget
            exact getD_len_le _ _ _ (by omega)
          rw [hf] at h
          exact absurd h (by simp)
      · have hf : mget m i j = false := by
          unfold mget
          rw [getD_len_le m i [] (by omega)]
          simp
        rw [hf] at h
        exact absurd h (by simp)
    · subst hia
      rw [mget_mset_of_ne m i j i c true (Or.inr (fun hc => hjc hc.symm))]
      exact h
  · rw [mget_mset_of_ne m i j a c true (Or.inl (fun hc => hia hc.symm))]
    exact h

theorem getD_mem_of_lt {α : Type} (l : List α) (i : Nat) (d : α)
    (hi : i < l.length) : l.getD i d ∈ l := by
  rw [List.getD_eq_getElem?_getD, List.getElem?_eq_getElem hi]
  exact List.getElem_mem _

theorem mget_mset_self_square (m : List (List Bool)) (n a b : Nat)
    (hsq : isSquare m n) (ha : a < n) (hb : b < n) :
    mget (mset m a b true) a b = true := by
  have hlen : a < m.length := by rw [hsq.1]; exact ha
  have hrow : (m.getD a []).length = n := hsq.2 _ (getD_mem_of_lt m a [] hlen)
  exact mget_mset_self m a b true hlen (by rw [hrow]; exact hb)

theorem isSquare_directStep (cols : List Nat) (cond : Expr)
    (m : List (List Bool)) (n : Nat) (hsq : isSquare m n) :
    isSquare (directStep cols cond m) n := by
  unfold directStep
  split
  · exact isSquare_mset _ _ _ _ _ (isSquare_mset _ _ _ _ _ hsq)
  · exact hsq

theorem directStep_mono (cols : List Nat) (cond : Expr)
    (m : List (List Bool)) (i j : Nat) (h : mget m i j = true) :
    mget (directStep cols cond m) i j = true := by
  unfold directStep
  split
  · exact mget_mset_true_mono _ _ _ _ _ (mget_mset_true_mono _ _ _ _ _ h)
  · exact h

theorem mget_directStep_cases (cols : List Nat) (cond : Expr)
    (m : List (List Bool)) (i j : Nat)
    (h : mget (directStep cols cond m) i j = true) :
    mget m i j = true ∨ ∃ l r,
      cond = Expr.scalarFunc .eq (.column l) (.column r) ∧
      ((getColID cols l = i ∧ getColID cols r = j) ∨
       (getColID cols l = j ∧ getColID cols r = i)) := by
  revert h
  unfold directStep
  split
  · next l r =>
    intro h
    rcases mget_mset_true_cases _ _ _ _ _ h with hm2 | ⟨hi, hj⟩
    · rcases mget_mset_true_cases _ _ _ _ _ hm2 with hm3 | ⟨hi, hj⟩
      · exact Or.inl hm3
      · exact Or.inr ⟨l, r, rfl, Or.inl ⟨hi.symm, hj.symm⟩⟩
    · exact Or.inr ⟨l, r, rfl, Or.inr ⟨hj.symm, hi.symm⟩⟩
  · intro h
    exact Or.inl h

theorem mget_directStep_self (cols : List Nat) (l r : Nat)
    (m : List (List Bool)) (hsq : isSquare m cols.length)
    (hl : l ∈ cols) (hr : r ∈ cols) :
    mget (directStep cols (Expr.scalarFunc .eq (.column l) (.column r)) m)
      (getColID cols l) (getColID cols r) = true ∧
    mget (directStep cols (Expr.scalarFunc .eq (.column l) (.column r)) m)
      (getColID cols r) (getColID cols l) = true := by
  unfold directStep
  constructor
  · apply mget_mset_true_mono
    exact mget_mset_self_square m cols.length _ _ hsq
      (getColID_lt cols l hl) (getColID_lt cols r hr)
  · exact mget_mset_self_square _ cols.length _ _
      (isSquare_mset _ _ _ _ _ hsq)
      (getColID_lt cols r hr) (getColID_lt cols l hl)

theorem isSquare_buildDirect (cols : List Nat) (conds : List Expr) :
    ∀ (m : List (List Bool)) (n : Nat), isSquare m n →
    isSquare (buildDirectMatrix cols conds m) n := by
  induction conds with
  | nil => intro m n hsq; simpa [buildDirectMatrix] using hsq
  | cons cond rest ih =>
    intro m n hsq
    rw [buildDirectMatrix]
    exact ih _ _ (isSquare_directStep _ _ _ _ hsq)

theorem buildDirect_mono (cols : List Nat) (conds : List Expr) :
    ∀ (m : List (List Bool)) (i j : Nat), mget m i j = true →
    mget (buildDirectMatrix cols conds m) i j = true := by
  induction conds with
  | nil => intro m i j h; simpa [buildDirectMatrix] using h
  | cons cond rest ih =>
    intro m i j h
    rw [buildDirectMatrix]
    exact ih _ _ _ (directStep_mono _ _ _ _ _ h)

theorem mget_buildDirect_cases (cols : List Nat) (conds : List Expr) :
    ∀ (m : List (List Bool)) (i j : Nat),
    mget (buildDirectMatrix cols conds m) i j = true →
    mget m i j = true ∨ ∃ l r,
      Expr.scalarFunc .eq (.column l) (.column r) ∈ conds ∧
      ((getColID cols l = i ∧ getColID cols r = j) ∨
       (getColID cols l = j ∧ getColID cols r = i)) := by
  induction conds with
  | nil => intro m i j h; rw [buildDirectMatrix] at h; exact Or.inl h
  | cons cond rest ih =>
    intro m i j h
    rw [buildDirectMatrix] at h
    rcases ih _ _ _ h with hm | ⟨l2, r2, hmem, hids⟩
    · rcases mget_directStep_cases _ _ _ _ _ hm with hm2 | ⟨l, r, rfl, hids⟩
      · exact Or.inl hm2
      · exact Or.inr ⟨l, r, List.mem_cons_self _ _, hids⟩
    · exact Or.inr ⟨l2, r2, List.mem_cons_of_mem _ hmem, hids⟩

theorem mget_buildDirect_of_mem (cols : List Nat) (conds : List Expr) :
    ∀ (m : List (List Bool)), isSquare m cols.length →
    ∀ l r, Expr.scalarFunc .eq (.column l) (.column r) ∈ conds →
    l ∈ cols → r ∈ cols →
    mget (buildDirectMatrix cols conds m)
      (getColID cols l) (getColID cols r) = true ∧
    mget (buildDirectMatrix cols conds m)
      (getColID cols r) (getColID cols l) = true := by
  induction conds with
  | nil => intro m _ l r hmem _ _; simp at hmem
  | cons cond rest ih =>
    intro m hsq l r hmem hl hr
    rcases List.mem_cons.mp hmem with heq | hmem2
    · subst heq
      rw [buildDirectMatrix]
      have hself := mget_directStep_self cols l r m hsq hl hr
      exact ⟨buildDirect_mono _ _ _ _ _ hself.1,
        buildDirect_mono _ _ _ _ _ hself.2⟩
    · rw [buildDirectMatrix]
      exact ih _ (isSquare_directStep _ _ _ _ hsq) l r hmem2 hl hr

theorem postEQ_cols_closed (conds : List Expr) :
    ∀ c ∈ (propagateEQ (initSolver conds)).conditions, ∀ h ∈ ExtractColumns c,
      h ∈ (propagateEQ (initSolver conds)).columns := by
  intro c hc h hh
  have hspec := propagateEQ_spec (initSolver conds) rfl
  rcases hspec.2.2 c hc with rfl | ⟨c0, hc0, _, hex⟩
  · simp [falseConst, ExtractColumns] at hh
  · have hh0 := hex h hh
    rcases List.mem_flatMap.mp
      (show c0 ∈ conds.flatMap SplitCNFItems from hc0) with ⟨e, he, hce⟩
    have hhe : h ∈ ExtractColumns e := mem_extract_of_splitCNF e c0 hce h hh0
    rw [hspec.1]
    show h ∈ buildColumns conds
    rw [buildColumns_mem]
    exact List.mem_flatMap.mpr ⟨e, he, hhe⟩

/-! Replication-pass lemmas. -/

theorem inEQScan_eq (cols : List Nat) (m : List (List Bool)) :
    ∀ (scan out : List Expr),
    inEQScan cols m scan out = out ++ scan.flatMap (replicateStep cols m) := by
  intro scan
  induction scan with
  | nil => intro out; simp [inEQScan]
  | cons c rest ih =>
    intro out
    rw [inEQScan, ih, List.flatMap_cons, List.append_assoc]

theorem synthFromRow_mem (name : FName) (cols : List Nat) (id : Nat)
    (con : Val) :
    ∀ (row : List Bool) (t : Nat) (e : Expr),
    e ∈ synthFromRow name cols id con row t ↔
      ∃ k, k < row.length ∧ row.getD k false = true ∧ t + k ≠ id ∧
        e = Expr.scalarFunc name (.column (cols.getD (t + k) 0))
          (.constant con) := by
  intro row
  induction row with
  | nil => intro t e; simp [synthFromRow]
  | cons b rest ih =>
    intro t e
    rw [synthFromRow]
    constructor
    · intro he
      rcases List.mem_append.mp he with h1 | h2
      · by_cases hc : ((t != id) && b) = true
        · rw [if_pos hc] at h1
          simp only [List.mem_singleton] at h1
          subst h1
          have hparts : (t != id) = true ∧ b = true := by simpa using hc
          refine ⟨0, by simp, ?_, ?_, by simp [NewFunction]⟩
          · simpa using hparts.2
          · have ht : t ≠ id := bne_iff_ne.mp hparts.1
            simpa using ht
        · rw [if_neg hc] at h1
          simp at h1
      · rcases (ih (t + 1) e).mp h2 with ⟨k, hk, hrow, hne, heq⟩
        refine ⟨k + 1, by simpa using hk, by simpa using hrow, by omega, ?_⟩
        rw [show t + (k + 1) = t + 1 + k from by omega]
        exact heq
    · rintro ⟨k, hk, hrow, hne, rfl⟩
      cases k with
      | zero =>
        apply List.mem_append.mpr
        left
        have hb : b = true := by simpa using hrow
        have ht : (t != id) = true := bne_iff_ne.mpr (by simpa using hne)
        rw [if_pos (by rw [hb, ht]; rfl)]
        simp [NewFunction]
      | succ k2 =>
        apply List.mem_append.mpr
        right
        apply (ih (t + 1) _).mpr
        refine ⟨k2, by simpa using hk, by simpa using hrow, by omega, ?_⟩
        rw [show t + 1 + k2 = t + (k2 + 1) from by omega]

theorem replicateStep_mem (cols : List Nat) (m : List (List Bool))
    (cond e : Expr) :
    e ∈ replicateStep cols m cond ↔
      ∃ col con k, validPropagateCond cond inEqFuncNameMap = some (col, con) ∧
        k < (m.getD (getColID cols col) []).length ∧
        mget m (getColID cols col) k = true ∧ k ≠ getColID cols col ∧
        e = Expr.scalarFunc (funcNameOf cond) (.column (cols.getD k 0))
          (.constant con) := by
  cases hv : validPropagateCond cond inEqFuncNameMap with
  | none => simp [replicateStep, hv]
  | some p =>
    obtain ⟨col, con⟩ := p
    constructor
    · intro he
      rw [show replicateStep cols m cond = synthFromRow (funcNameOf cond) cols
          (getColID cols col) con (m.getD (getColID cols col) []) 0 from by
        simp only [replicateStep, hv]] at he
      rcases (synthFromRow_mem _ _ _ _ _ 0 e).mp he with ⟨k, hk, hrow, hne, heq⟩
      refine ⟨col, con, k, rfl, hk, hrow, by simpa using hne, ?_⟩
      simpa using heq
    · rintro ⟨col2, con2, k, hv2, hk, hm, hne, rfl⟩
      injection hv2 with hv3
      injection hv3 with h1 h2
      subst h1
      subst h2
      rw [show replicateStep cols m cond = synthFromRow (funcNameOf cond) cols
          (getColID cols col) con (m.getD (getColID cols col) []) 0 from by
        simp only [replicateStep, hv]]
      apply (synthFromRow_mem _ _ _ _ _ 0 _).mpr
      exact ⟨k, hk, hm, by simpa using hne, by simp⟩

theorem validPropagateCond_shape (cond : Expr) (mmap : FName → Bool)
    (p : Nat × Val) (h : validPropagateCond cond mmap = some p) :
    ∃ n a b, cond = Expr.scalarFunc n a b ∧ mmap n = true ∧
      funcNameOf cond = n := by
  cases cond with
  | column k => simp [validPropagateCond] at h
  | constant v => simp [validPropagateCond] at h
  | scalarFunc n a b =>
    refine ⟨n, a, b, rfl, ?_, rfl⟩
    simp only [validPropagateCond] at h
    by_cases hm : mmap n = true
    · exact hm
    · rw [if_neg hm] at h
      exact absurd h (by simp)

theorem inEq_not_or (name : FName) (a b : Expr)
    (hin : inEqFuncNameMap name = true) :
    isOrCond (Expr.scalarFunc name a b) = false := by
  cases name <;> simp_all [inEqFuncNameMap, isOrCond]

theorem replicateStep_shape (cols : List Nat) (m : List (List Bool))
    (cond e : Expr) (he : e ∈ replicateStep cols m cond) :
    ∃ name k v, e = Expr.scalarFunc name (.column k) (.constant v) ∧
      inEqFuncNameMap name = true := by
  rcases (replicateStep_mem cols m cond e).mp he with
    ⟨col, con, k, hv, _, _, _, rfl⟩
  rcases validPropagateCond_shape cond inEqFuncNameMap _ hv with
    ⟨n, a, b, rfl, hin, hname⟩
  exact ⟨funcNameOf (Expr.scalarFunc n a b), _, con, rfl, by rw [hname]; exact hin⟩

theorem propagateInEQ_conditions (s : PCSolver) :
    (propagateInEQ s).conditions = s.conditions ++
      s.conditions.flatMap (replicateStep s.columns (transitiveMatrixOf s)) := by
  show inEQScan s.columns (transitiveMatrixOf s) s.conditions s.conditions = _
  exact inEQScan_eq _ _ _ _

theorem pipeline_or_size (conds : List Expr) (c : Expr)
    (hc : c ∈ (propagateInEQ (propagateEQ (initSolver conds))).conditions)
    (hor : isOrCond c = true) : sizeE c ≤ sizeList conds := by
  rw [propagateInEQ_conditions] at hc
  rcases List.mem_append.mp hc with hc1 | hc2
  · rcases (propagateEQ_spec (initSolver conds) rfl).2.2 c hc1 with
      rfl | ⟨c0, hc0, hsz, _⟩
    · simp [falseConst, isOrCond] at hor
    · calc sizeE c = sizeE c0 := hsz
        _ ≤ sizeList (flattenConds conds) := mem_sizeE_le _ _ hc0
        _ ≤ sizeList conds := sizeList_flattenConds conds
  · rcases List.mem_flatMap.mp hc2 with ⟨c1, _, he⟩
    rcases replicateStep_shape _ _ _ _ he with ⟨name, k, v, rfl, hin⟩
    rw [inEq_not_or _ _ _ hin] at hor
    exact absurd hor (by simp)

/-! Round-count lemmas for equality propagation. -/

theorem pickLoop_noneCount (list : List Expr) :
    ∀ (i : Nat) (s : PCSolver) (visited : List Bool) (mapper : List (Nat × Val)),
    s.foreverFalse = false →
    s.eqList.length = s.columns.length →
    (∀ c ∈ list, ∀ h ∈ ExtractColumns c, h ∈ s.columns) →
    noneCount (pickLoop list i s visited mapper).1.eqList +
      (pickLoop list i s visited mapper).2.2.length ≤
      noneCount s.eqList + mapper.length := by
  induction list with
  | nil => intro i s visited mapper _ _ _; simp [pickLoop]
  | cons cond rest ih =>
    intro i s visited mapper hff hlen hcl
    have hclr : ∀ c ∈ rest, ∀ h ∈ ExtractColumns c, h ∈ s.columns :=
      fun c hc => hcl c (List.mem_cons_of_mem _ hc)
    by_cases hv : visited.getD i false
    · simpa only [pickLoop, hv, if_true] using ih (i + 1) s visited mapper hff hlen hclr
    · cases hvc : validPropagateCond cond eqFuncNameMap with
      | none =>
        simpa only [pickLoop, hv, Bool.false_eq_true, if_false, hvc]
          using ih (i + 1) s visited mapper hff hlen hclr
      | some p =>
        obtain ⟨col, con⟩ := p
        have hspec := tryToUpdateEQList_spec s col con hff
        have hcolmem : col ∈ s.columns :=
          hcl cond (List.mem_cons_self _ _) col
            (validPropagateCond_col_mem cond eqFuncNameMap col con hvc)
        by_cases hok : (tryToUpdateEQList s col con).2 = true
        · have hok2 := hspec.2.2.2.2.1 hok
          have hid : getColID s.columns col < s.eqList.length := by
            rw [hlen]
            exact getColID_lt s.columns col hcolmem
          have hcount :
              noneCount ((tryToUpdateEQList s col con).1.eqList) + 1 =
                noneCount s.eqList := by
            rw [hok2.2.2]
            exact noneCount_set_some s.eqList _ con hid hok2.2.1
          have hrec := ih (i + 1) (tryToUpdateEQList s col con).1 (visited.set i true)
            (mapper ++ [(getColID (tryToUpdateEQList s col con).1.columns col, con)])
            hok2.1 (by rw [hok2.2.2]; simpa [hspec.1] using hlen)
            (by rw [hspec.1]; exact hclr)
          simp only [pickLoop, hv, Bool.false_eq_true, if_false, hvc, hok, if_true]
          simp only [List.length_append, List.length_singleton] at hrec
          omega
        · have hok' : (tryToUpdateEQList s col con).2 = false := by simpa using hok
          have heq := hspec.2.2.2.2.2 hok'
          by_cases hf1 : (tryToUpdateEQList s col con).1.foreverFalse = true
          · simp only [pickLoop, hv, Bool.false_eq_true, if_false, hvc, hok', hf1,
              if_true]
            rw [heq]
          · have hff1 : (tryToUpdateEQList s col con).1.foreverFalse = false := by
              simpa using hf1
            have hrec := ih (i + 1) (tryToUpdateEQList s col con).1 (visited.set i true)
              mapper hff1 (by rw [heq]; simpa [hspec.1] using hlen)
              (by rw [hspec.1]; exact hclr)
            simp only [pickLoop, hv, Bool.false_eq_true, if_false, hvc, hok', hf1]
            rw [heq] at hrec
            omega

theorem propagateEQLoopCount_le_fuel (fuel : Nat) :
    ∀ (s : PCSolver) (visited : List Bool),
    (propagateEQLoopCount fuel s visited).2 ≤ fuel := by
  induction fuel with
  | zero => intro s visited; simp [propagateEQLoopCount]
  | succ fuel ih =>
    intro s visited
    by_cases hstop : ((pickNewEQConds s visited).1.foreverFalse ||
        (pickNewEQConds s visited).2.2.isEmpty) = true
    · rw [propagateEQLoopCount, hstop]
      simp
    · have hstopb : ((pickNewEQConds s visited).1.foreverFalse ||
          (pickNewEQConds s visited).2.2.isEmpty) = false := by simpa using hstop
      rw [propagateEQLoopCount, hstopb]
      simpa using ih _ _

theorem propagateEQLoopCount_fst (fuel : Nat) :
    ∀ (s : PCSolver) (visited : List Bool),
    (propagateEQLoopCount fuel s visited).1 = propagateEQLoop fuel s visited := by
  induction fuel with
  | zero => intro s visited; simp [propagateEQLoopCount, propagateEQLoop]
  | succ fuel ih =>
    intro s visited
    by_cases hstop : ((pickNewEQConds s visited).1.foreverFalse ||
        (pickNewEQConds s visited).2.2.isEmpty) = true
    · rw [propagateEQLoopCount, propagateEQLoop, hstop]
      simp
    · have hstopb : ((pickNewEQConds s visited).1.foreverFalse ||
          (pickNewEQConds s visited).2.2.isEmpty) = false := by simpa using hstop
      rw [propagateEQLoopCount, propagateEQLoop, hstopb]
      simpa using ih _ _

theorem propagateEQLoopCount_le_none (fuel : Nat) :
    ∀ (s : PCSolver) (visited : List Bool),
    s.foreverFalse = false →
    s.eqList.length = s.columns.length →
    (∀ c ∈ s.conditions, ∀ h ∈ ExtractColumns c, h ∈ s.columns) →
    (propagateEQLoopCount fuel s visited).2 ≤ noneCount s.eqList + 1 := by
  induction fuel with
  | zero => intro s visited _ _ _; simp [propagateEQLoopCount]
  | succ fuel ih =>
    intro s visited hff hlen hcl
    have hpick : (pickNewEQConds s visited).1.columns = s.columns ∧
        (pickNewEQConds s visited).1.eqList.length = s.eqList.length ∧
        ((pickNewEQConds s visited).1.foreverFalse = true →
          (pickNewEQConds s visited).1.conditions = [falseConst]) ∧
        ((pickNewEQConds s visited).1.foreverFalse = false →
          (pickNewEQConds s visited).1.conditions = s.conditions) :=
      pickLoop_spec s.conditions 0 s visited [] hff
    have hacc : noneCount (pickNewEQConds s visited).1.eqList +
        (pickNewEQConds s visited).2.2.length ≤ noneCount s.eqList := by
      have h := pickLoop_noneCount s.conditions 0 s visited [] hff hlen hcl
      simpa using h
    by_cases hstop : ((pickNewEQConds s visited).1.foreverFalse ||
        (pickNewEQConds s visited).2.2.isEmpty) = true
    · rw [propagateEQLoopCount, hstop]
      simp
    · have hstopb : ((pickNewEQConds s visited).1.foreverFalse ||
          (pickNewEQConds s visited).2.2.isEmpty) = false := by simpa using hstop
      have hff1 : (pickNewEQConds s visited).1.foreverFalse = false :=
        (Bool.or_eq_false_iff.mp hstopb).1
      have hne : (pickNewEQConds s visited).2.2.length ≥ 1 := by
        have := (Bool.or_eq_false_iff.mp hstopb).2
        cases hml : (pickNewEQConds s visited).2.2 with
        | nil => rw [hml] at this; simp at this
        | cons a t => simp [hml]
      rw [propagateEQLoopCount, hstopb]
      have hrec := ih
        { (pickNewEQConds s visited).1 with
            conditions := (substRound (pickNewEQConds s visited).1
              (pickNewEQConds s visited).2.1 (pickNewEQConds s visited).2.2) }
        (pickNewEQConds s visited).2.1 hff1
        (by simpa [hpick.1] using hpick.2.1.trans hlen)
        (by
          intro c hc h hh
          rcases mem_substRound _ _ _ c hc with ⟨c0, hc0, _, hex⟩
          rw [hpick.2.2.2 hff1] at hc0
          show h ∈ (pickNewEQConds s visited).1.columns
          rw [hpick.1]
          exact hcl c0 hc0 h (hex h hh))
      simp only [Bool.false_eq_true, if_false]
      dsimp only at hrec ⊢
      omega

/-! Fuel stability of the solver. -/

theorem isOrCond_shape (c : Expr) (h : isOrCond c = true) :
    ∃ a b, c = Expr.scalarFunc .oror a b := by
  cases c with
  | column k => simp [isOrCond] at h
  | constant v => simp [isOrCond] at h
  | scalarFunc n a b =>
    cases n <;> first | exact ⟨a, b, rfl⟩ | simp [isOrCond] at h

theorem splitDNF_lt_of_or (c item : Expr) (hitem : item ∈ SplitDNFItems c)
    (hor : isOrCond c = true) : sizeE item < sizeE c := by
  rcases isOrCond_shape c hor with ⟨a, b, rfl⟩
  rw [show SplitDNFItems (Expr.scalarFunc .oror a b) =
      SplitDNFItems a ++ SplitDNFItems b from rfl] at hitem
  rcases List.mem_append.mp hitem with hm | hm
  · have := mem_splitDNF_sizeE_le a item hm
    simp only [sizeE]
    omega
  · have := mem_splitDNF_sizeE_le b item hm
    simp only [sizeE]
    omega

theorem solveFuel_stable (n : Nat) :
    ∀ (l : List Expr) (f : Nat), sizeList l ≤ n → sizeList l < f →
    solveFuel f l = solveFuel (sizeList l + 1) l := by
  induction n using Nat.strong_induction_on with
  | _ n ih =>
    intro l f hn hf
    cases f with
    | zero => omega
    | succ f0 =>
      rw [solveFuel, solveFuel]
      by_cases hcap : (buildColumns l).length > MaxPropagateColsCnt
      · rw [if_pos hcap, if_pos hcap]
      · rw [if_neg hcap, if_neg hcap]
        unfold dnfPass
        apply List.map_congr_left
        intro c hc
        by_cases hor : isOrCond c = true
        · rw [if_pos hor, if_pos hor]
          congr 1
          apply List.map_congr_left
          intro item hitem
          congr 1
          have hszc := pipeline_or_size l c hc hor
          have hszi : sizeE item < sizeE c := splitDNF_lt_of_or c item hitem hor
          have hlt : sizeE item < sizeList l := by omega
          have e1 : solveFuel f0 [item] =
              solveFuel (sizeList [item] + 1) [item] := by
            apply ih (sizeE item) (by omega) [item] f0
            · rw [sizeList_singleton]
            · rw [sizeList_singleton]; omega
          have e2 : solveFuel (sizeList l) [item] =
              solveFuel (sizeList [item] + 1) [item] := by
            apply ih (sizeE item) (by omega) [item] (sizeList l)
            · rw [sizeList_singleton]
            · rw [sizeList_singleton]; omega
          show solveFuel f0 [item] = solveFuel (sizeList l) [item]
          rw [e1, e2]
        · rw [if_neg hor, if_neg hor]

/-! Remaining helper lemmas. -/

theorem noneCount_replicate (n : Nat) :
    noneCount (List.replicate n (none : Option Val)) = n := by
  simp [noneCount, List.countP_replicate]

theorem row_len_le (M : List (List Bool)) (n id : Nat) (hsq : isSquare M n) :
    (M.getD id []).length ≤ n := by
  by_cases hid : id < M.length
  · rw [hsq.2 _ (getD_mem_of_lt M id [] hid)]
  · rw [getD_len_le _ _ _ (by omega)]
    simp

theorem nodup_getD_ne (cols : List Nat) :
    ∀ (i j : Nat), cols.Nodup → i < cols.length → j < cols.length → i ≠ j →
    cols.getD i 0 ≠ cols.getD j 0 := by
  induction cols with
  | nil => intro i j _ hi _ _; simp at hi
  | cons c rest ih =>
    intro i j hnd hi hj hij
    rcases List.nodup_cons.mp hnd with ⟨hc, hrest⟩
    cases i with
    | zero =>
      cases j with
      | zero => exact absurd rfl hij
      | succ j2 =>
        intro heq
        simp only [List.getD_cons_zero, List.getD_cons_succ] at heq
        exact hc (by rw [heq]; exact getD_mem_of_lt rest j2 0 (by simpa using hj))
    | succ i2 =>
      cases j with
      | zero =>
        intro heq
        simp only [List.getD_cons_zero, List.getD_cons_succ] at heq
        exact hc (by rw [← heq]; exact getD_mem_of_lt rest i2 0 (by simpa using hi))
      | succ j2 =>
        simp only [List.getD_cons_succ]
        exact ih i2 j2 hrest (by simpa using hi) (by simpa using hj) (by omega)

theorem isSquare_fwUpdate (k i j n : Nat) (m : List (List Bool))
    (hsq : isSquare m n) : isSquare (fwUpdate k i j m) n := by
  unfold fwUpdate
  split
  · exact hsq
  · exact isSquare_mset _ _ _ _ _ hsq

theorem isSquare_upTo (n : Nat) (f : Nat → List (List Bool) → List (List Bool))
    (hf : ∀ k m, isSquare m n → isSquare (f k m) n) :
    ∀ (t : Nat) (m : List (List Bool)), isSquare m n → isSquare (upTo f t m) n := by
  intro t
  induction t with
  | zero => intro m h; exact h
  | succ t ih => intro m h; exact hf t _ (ih m h)

theorem isSquare_transitiveMatrixOf (s : PCSolver) :
    isSquare (transitiveMatrixOf s) s.columns.length := by
  unfold transitiveMatrixOf floydWarshall
  apply isSquare_upTo
  · intro k m hm
    apply isSquare_upTo
    · intro i m2 hm2
      apply isSquare_upTo
      · intro j m3 hm3
        exact isSquare_fwUpdate _ _ _ _ _ hm3
      · exact hm2
    · exact hm
  · exact isSquare_buildDirect _ _ _ _ (isSquare_mkMatrix _)

/-! Claim theorems. -/

/-- C1: the spec claims that for every input at or below the column cap the
output is logically equivalent to the input, in particular that every condition
replicated by propagateInEQ — including from sources written with the constant
on the left such as `5 > a` — is entailed by the original condition set.  The
code violates this: on input `5 > a AND a = b` it synthesizes `b > 5` for the
equivalent column `b` without mirroring the operator, and the valuation
`a = b = 0` makes every input condition true while making `b > 5` false, so the
output is not entailed by (hence not equivalent to) the input. -/
theorem prop_C1_unsound :
    Expr.scalarFunc .gt (.column 1) (.constant (.vint 5)) ∈
      PropagateConstant
        [Expr.scalarFunc .gt (.constant (.vint 5)) (.column 0),
         Expr.scalarFunc .eq (.column 0) (.column 1)] ∧
    condHolds (fun _ => Val.vint 0)
      (Expr.scalarFunc .gt (.constant (.vint 5)) (.column 0)) = true ∧
    condHolds (fun _ => Val.vint 0)
      (Expr.scalarFunc .eq (.column 0) (.column 1)) = true ∧
    condHolds (fun _ => Val.vint 0)
      (Expr.scalarFunc .gt (.column 1) (.constant (.vint 5))) = false := by
  decide

/-- C4: the spec claims the solver is idempotent — a second run on its own
output adds no condition not already in its input.  The code violates this: on
input `5 > a AND a = b` the first run produces `[5 > a, a = b, b > 5]`, and the
second run replicates the column-first `b > 5` back to the equivalent column
`a`, appending `a > 5`, a condition not present in the second run's input. -/
theorem prop_C4_not_idempotent :
    Expr.scalarFunc .gt (.column 0) (.constant (.vint 5)) ∈
      PropagateConstant (PropagateConstant
        [Expr.scalarFunc .gt (.constant (.vint 5)) (.column 0),
         Expr.scalarFunc .eq (.column 0) (.column 1)]) ∧
    Expr.scalarFunc .gt (.column 0) (.constant (.vint 5)) ∉
      PropagateConstant
        [Expr.scalarFunc .gt (.constant (.vint 5)) (.column 0),
         Expr.scalarFunc .eq (.column 0) (.column 1)] := by
  decide

/-- C2 counterexample: on input `a = b AND b = 1` the original conjunct set
contains the bare equality `a = b` (columns with dense ids 0 and 1), yet the
direct-equality matrix built by the equivalence closure has its (0, 1) entry
unset, because equality propagation rewrote `a = b` into `a = 1` before the
matrix was built — so the matrix is not built from the conditions as originally
given. -/
theorem prop_C2_counterexample :
    Expr.scalarFunc .eq (.column 0) (.column 1) ∈
      flattenConds [Expr.scalarFunc .eq (.column 0) (.column 1),
        Expr.scalarFunc .eq (.column 1) (.constant (.vint 1))] ∧
    getColID (propagateEQ (initSolver
      [Expr.scalarFunc .eq (.column 0) (.column 1),
       Expr.scalarFunc .eq (.column 1) (.constant (.vint 1))])).columns 0 = 0 ∧
    getColID (propagateEQ (initSolver
      [Expr.scalarFunc .eq (.column 0) (.column 1),
       Expr.scalarFunc .eq (.column 1) (.constant (.vint 1))])).columns 1 = 1 ∧
    mget (directMatrixOf (propagateEQ (initSolver
      [Expr.scalarFunc .eq (.column 0) (.column 1),
       Expr.scalarFunc .eq (.column 1) (.constant (.vint 1))]))) 0 1 = false := by
  decide

/-- C2 (amended): the direct-equality matrix is built by scanning the conjunct
set as it stands when the equivalence closure runs — after equality propagation
has edited it: for every pair (i, j), the entry is set iff some condition of
the post-equality-propagation conjunct set is exactly a bare column = column
comparison whose dense ids are (i, j) in either orientation. -/
theorem prop_C2_amended (conds : List Expr) (i j : Nat) :
    mget (directMatrixOf (propagateEQ (initSolver conds))) i j = true ↔
      ∃ l r, Expr.scalarFunc .eq (.column l) (.column r) ∈
          (propagateEQ (initSolver conds)).conditions ∧
        ((getColID (propagateEQ (initSolver conds)).columns l = i ∧
          getColID (propagateEQ (initSolver conds)).columns r = j) ∨
         (getColID (propagateEQ (initSolver conds)).columns l = j ∧
          getColID (propagateEQ (initSolver conds)).columns r = i)) := by
  unfold directMatrixOf
  constructor
  · intro h
    rcases mget_buildDirect_cases (propagateEQ (initSolver conds)).columns
      (propagateEQ (initSolver conds)).conditions _ i j h with hm | hex
    · rw [mget_mkMatrix] at hm
      exact absurd hm (by simp)
    · exact hex
  · rintro ⟨l, r, hmem, hids⟩
    have hl : l ∈ (propagateEQ (initSolver conds)).columns :=
      postEQ_cols_closed conds _ hmem l (by simp [ExtractColumns])
    have hr : r ∈ (propagateEQ (initSolver conds)).columns :=
      postEQ_cols_closed conds _ hmem r (by simp [ExtractColumns])
    have hboth := mget_buildDirect_of_mem
      (propagateEQ (initSolver conds)).columns
      (propagateEQ (initSolver conds)).conditions _
      (isSquare_mkMatrix _) l r hmem hl hr
    rcases hids with ⟨hi, hj⟩ | ⟨hi, hj⟩
    · rw [← hi, ← hj]
      exact hboth.1
    · rw [← hi, ← hj]
      exact hboth.2

/-- C3: for every input at or below the column cap on which equality
propagation detects an unsatisfiable binding (sets the forever-false flag —
which happens exactly for a NULL binding or a column bound to two different
constants), the returned condition list is exactly the single literal-false
condition, regardless of the other conjuncts present. -/
theorem prop_C3_contradiction_collapse (conds : List Expr)
    (hcap : (buildColumns conds).length ≤ MaxPropagateColsCnt)
    (hff : (propagateEQ (initSolver conds)).foreverFalse = true) :
    PropagateConstant conds = [falseConst] := by
  have hconds := (propagateEQ_spec (initSolver conds) rfl).2.1 hff
  unfold PropagateConstant
  rw [solveFuel]
  rw [if_neg (by omega)]
  rw [propagateInEQ_conditions, hconds]
  simp [dnfPass, isOrCond, falseConst, replicateStep, validPropagateCond]

theorem prop_C3_witness :
    (buildColumns [Expr.scalarFunc .eq (.column 0) (.constant (.vint 1)),
        Expr.scalarFunc .eq (.column 0) (.constant (.vint 2)),
        Expr.scalarFunc .lt (.column 1) (.constant (.vint 7))]).length ≤
      MaxPropagateColsCnt ∧
    (propagateEQ (initSolver
      [Expr.scalarFunc .eq (.column 0) (.constant (.vint 1)),
       Expr.scalarFunc .eq (.column 0) (.constant (.vint 2)),
       Expr.scalarFunc .lt (.column 1) (.constant (.vint 7))])).foreverFalse =
      true ∧
    PropagateConstant
      [Expr.scalarFunc .eq (.column 0) (.constant (.vint 1)),
       Expr.scalarFunc .eq (.column 0) (.constant (.vint 2)),
       Expr.scalarFunc .lt (.column 1) (.constant (.vint 7))] = [falseConst] :=
  ⟨by decide, by decide, prop_C3_contradiction_collapse _ (by decide) (by decide)⟩

/-- C5: for every input whose distinct referenced column count exceeds the cap,
PropagateConstant returns the input condition list itself — structurally
identical, with no propagation, substitution, or flattening applied. -/
theorem prop_C5_cap_fallback (conds : List Expr)
    (hcap : MaxPropagateColsCnt < (buildColumns conds).length) :
    PropagateConstant conds = conds := by
  unfold PropagateConstant
  rw [solveFuel]
  rw [if_pos hcap]

theorem prop_C5_witness :
    MaxPropagateColsCnt < (buildColumns ((List.range 101).map
      (fun k => Expr.scalarFunc .eq (.column k)
        (.constant (.vint 1))))).length ∧
    PropagateConstant ((List.range 101).map
      (fun k => Expr.scalarFunc .eq (.column k) (.constant (.vint 1)))) =
      (List.range 101).map
        (fun k => Expr.scalarFunc .eq (.column k) (.constant (.vint 1))) :=
  ⟨by decide, prop_C5_cap_fallback _ (by decide)⟩

/-- C6: for the input `a = b AND b = c AND c < 5` the output contains the
replicated conditions `a < 5` and `b < 5` in addition to all three original
conjuncts. -/
theorem prop_C6_transitive_ineq :
    Expr.scalarFunc .lt (.column 0) (.constant (.vint 5)) ∈
      PropagateConstant [Expr.scalarFunc .eq (.column 0) (.column 1),
        Expr.scalarFunc .eq (.column 1) (.column 2),
        Expr.scalarFunc .lt (.column 2) (.constant (.vint 5))] ∧
    Expr.scalarFunc .lt (.column 1) (.constant (.vint 5)) ∈
      PropagateConstant [Expr.scalarFunc .eq (.column 0) (.column 1),
        Expr.scalarFunc .eq (.column 1) (.column 2),
        Expr.scalarFunc .lt (.column 2) (.constant (.vint 5))] ∧
    Expr.scalarFunc .eq (.column 0) (.column 1) ∈
      PropagateConstant [Expr.scalarFunc .eq (.column 0) (.column 1),
        Expr.scalarFunc .eq (.column 1) (.column 2),
        Expr.scalarFunc .lt (.column 2) (.constant (.vint 5))] ∧
    Expr.scalarFunc .eq (.column 1) (.column 2) ∈
      PropagateConstant [Expr.scalarFunc .eq (.column 0) (.column 1),
        Expr.scalarFunc .eq (.column 1) (.column 2),
        Expr.scalarFunc .lt (.column 2) (.constant (.vint 5))] ∧
    Expr.scalarFunc .lt (.column 2) (.constant (.vint 5)) ∈
      PropagateConstant [Expr.scalarFunc .eq (.column 0) (.column 1),
        Expr.scalarFunc .eq (.column 1) (.column 2),
        Expr.scalarFunc .lt (.column 2) (.constant (.vint 5))] := by
  decide

/-- C7: during one inequality-replication pass, conditions appended by the pass
are never scanned as replication sources: the resulting condition list is the
original list followed by the conditions synthesized from the original list
alone, and every synthesized condition originates from a condition present when
the pass began. -/
theorem prop_C7_snapshot (s : PCSolver) :
    (propagateInEQ s).conditions = s.conditions ++
      s.conditions.flatMap (replicateStep s.columns (transitiveMatrixOf s)) ∧
    ∀ e ∈ s.conditions.flatMap (replicateStep s.columns (transitiveMatrixOf s)),
      ∃ c ∈ s.conditions, e ∈ replicateStep s.columns (transitiveMatrixOf s) c :=
  ⟨propagateInEQ_conditions s, fun _ he => List.mem_flatMap.mp he⟩

theorem prop_C7_witness :
    Expr.scalarFunc .lt (.column 1) (.constant (.vint 1)) ∈
      (PCSolver.mk [0, 1]
        [Expr.scalarFunc .eq (.column 0) (.column 1),
         Expr.scalarFunc .lt (.column 0) (.constant (.vint 1))] []
        false).conditions.flatMap
        (replicateStep (PCSolver.mk [0, 1]
          [Expr.scalarFunc .eq (.column 0) (.column 1),
           Expr.scalarFunc .lt (.column 0) (.constant (.vint 1))] []
          false).columns
          (transitiveMatrixOf (PCSolver.mk [0, 1]
            [Expr.scalarFunc .eq (.column 0) (.column 1),
             Expr.scalarFunc .lt (.column 0) (.constant (.vint 1))] []
            false))) ∧
    ∃ c ∈ (PCSolver.mk [0, 1]
        [Expr.scalarFunc .eq (.column 0) (.column 1),
         Expr.scalarFunc .lt (.column 0) (.constant (.vint 1))] []
        false).conditions,
      Expr.scalarFunc .lt (.column 1) (.constant (.vint 1)) ∈
        replicateStep (PCSolver.mk [0, 1]
          [Expr.scalarFunc .eq (.column 0) (.column 1),
           Expr.scalarFunc .lt (.column 0) (.constant (.vint 1))] []
          false).columns
          (transitiveMatrixOf (PCSolver.mk [0, 1]
            [Expr.scalarFunc .eq (.column 0) (.column 1),
             Expr.scalarFunc .lt (.column 0) (.constant (.vint 1))] []
            false)) c :=
  ⟨by decide,
    (prop_C7_snapshot (PCSolver.mk [0, 1]
      [Expr.scalarFunc .eq (.column 0) (.column 1),
       Expr.scalarFunc .lt (.column 0) (.constant (.vint 1))] []
      false)).2 _ (by decide)⟩

/-- C8: equality propagation always terminates: the instrumented round loop
computes the same state as `propagateEQ`, executes at most `MaxPropagateColsCnt`
rounds, and — because every non-final round binds at least one previously
unbound column — at most one round more than the number of distinct columns,
which is how the fixpoint stop and the cap bound the loop. -/
theorem prop_C8_termination (s : PCSolver) (hff : s.foreverFalse = false)
    (hcl : ∀ c ∈ s.conditions, ∀ h ∈ ExtractColumns c, h ∈ s.columns) :
    (propagateEQLoopCount MaxPropagateColsCnt
        { s with eqList := List.replicate s.columns.length none }
        (List.replicate s.conditions.length false)).1 = propagateEQ s ∧
    propagateEQRounds s ≤ MaxPropagateColsCnt ∧
    propagateEQRounds s ≤ s.columns.length + 1 := by
  refine ⟨propagateEQLoopCount_fst _ _ _, propagateEQLoopCount_le_fuel _ _ _, ?_⟩
  have h := propagateEQLoopCount_le_none MaxPropagateColsCnt
    { s with eqList := List.replicate s.columns.length none }
    (List.replicate s.conditions.length false) hff (by simp) hcl
  dsimp only at h
  rw [noneCount_replicate] at h
  exact h

theorem prop_C8_witness :
    propagateEQRounds (initSolver
      [Expr.scalarFunc .eq (.column 0) (.column 1),
       Expr.scalarFunc .eq (.column 1) (.constant (.vint 1))]) ≤
      MaxPropagateColsCnt ∧
    propagateEQRounds (initSolver
      [Expr.scalarFunc .eq (.column 0) (.column 1),
       Expr.scalarFunc .eq (.column 1) (.constant (.vint 1))]) ≤
      (initSolver [Expr.scalarFunc .eq (.column 0) (.column 1),
        Expr.scalarFunc .eq (.column 1) (.constant (.vint 1))]).columns.length
        + 1 :=
  ⟨(prop_C8_termination _ rfl (by decide)).2.1,
   (prop_C8_termination _ rfl (by decide)).2.2⟩

/-- C9: for every input at or below the column cap, the final pass of the
solver rewrites the post-pipeline condition list in place: a condition that is
a disjunction is replaced by the recomposed disjunction of its disjuncts, each
disjunct rewritten by an independent full solver run (`PropagateConstant`) on
that single disjunct alone — so bindings found in one OR-branch are a function
of that branch only and never leak into a sibling — and every non-disjunction
condition is left unchanged at its position. -/
theorem prop_C9_dnf_recursion (conds : List Expr)
    (hcap : (buildColumns conds).length ≤ MaxPropagateColsCnt) :
    PropagateConstant conds =
      dnfPass (fun item => PropagateConstant [item])
        (propagateInEQ (propagateEQ (initSolver conds))).conditions := by
  unfold PropagateConstant
  rw [solveFuel]
  rw [if_neg (by omega)]
  unfold dnfPass
  apply List.map_congr_left
  intro c hc
  by_cases hor : isOrCond c = true
  · rw [if_pos hor, if_pos hor]
    congr 1
    apply List.map_congr_left
    intro item hitem
    congr 1
    show solveFuel (sizeList conds) [item] =
      solveFuel (sizeList [item] + 1) [item]
    have hszc := pipeline_or_size conds c hc hor
    have hszi := splitDNF_lt_of_or c item hitem hor
    apply solveFuel_stable (sizeE item) [item] (sizeList conds)
    · rw [sizeList_singleton]
    · rw [sizeList_singleton]; omega
  · rw [if_neg hor, if_neg hor]

theorem prop_C9_witness :
    (buildColumns [Expr.scalarFunc .oror
      (Expr.scalarFunc .andand
        (Expr.scalarFunc .eq (.column 0) (.constant (.vint 1)))
        (Expr.scalarFunc .eq (.column 1) (.constant (.vint 2))))
      (Expr.scalarFunc .andand
        (Expr.scalarFunc .eq (.column 0) (.constant (.vint 1)))
        (Expr.scalarFunc .eq (.column 2) (.constant (.vint 3))))]).length ≤
      MaxPropagateColsCnt ∧
    PropagateConstant [Expr.scalarFunc .oror
      (Expr.scalarFunc .andand
        (Expr.scalarFunc .eq (.column 0) (.constant (.vint 1)))
        (Expr.scalarFunc .eq (.column 1) (.constant (.vint 2))))
      (Expr.scalarFunc .andand
        (Expr.scalarFunc .eq (.column 0) (.constant (.vint 1)))
        (Expr.scalarFunc .eq (.column 2) (.constant (.vint 3))))] =
      dnfPass (fun item => PropagateConstant [item])
        (propagateInEQ (propagateEQ (initSolver
          [Expr.scalarFunc .oror
            (Expr.scalarFunc .andand
              (Expr.scalarFunc .eq (.column 0) (.constant (.vint 1)))
              (Expr.scalarFunc .eq (.column 1) (.constant (.vint 2))))
            (Expr.scalarFunc .andand
              (Expr.scalarFunc .eq (.column 0) (.constant (.vint 1)))
              (Expr.scalarFunc .eq (.column 2) (.constant (.vint 3))))]))).conditions :=
  ⟨by decide, prop_C9_dnf_recursion _ (by decide)⟩

/-- C10: every condition synthesized by inequality replication is a binary
comparison whose left operand is the equivalent column and whose right operand
is the constant taken from the source condition, carrying the source
condition's own operator unchanged — also when the source condition had the
constant as its left operand, since `validPropagateCond` accepts both operand
orders — and the equivalent column is always distinct from the source
condition's own column. -/
theorem prop_C10_synth_shape (s : PCSolver) (hnd : s.columns.Nodup)
    (hcl : ∀ c ∈ s.conditions, ∀ h ∈ ExtractColumns c, h ∈ s.columns) :
    (propagateInEQ s).conditions = s.conditions ++
      s.conditions.flatMap (replicateStep s.columns (transitiveMatrixOf s)) ∧
    ∀ e ∈ s.conditions.flatMap (replicateStep s.columns (transitiveMatrixOf s)),
      ∃ c ∈ s.conditions, ∃ col con k,
        validPropagateCond c inEqFuncNameMap = some (col, con) ∧
        e = Expr.scalarFunc (funcNameOf c) (.column (s.columns.getD k 0))
          (.constant con) ∧
        k ≠ getColID s.columns col ∧ s.columns.getD k 0 ≠ col := by
  refine ⟨propagateInEQ_conditions s, ?_⟩
  intro e he
  rcases List.mem_flatMap.mp he with ⟨c, hc, hec⟩
  rcases (replicateStep_mem _ _ _ _).mp hec with
    ⟨col, con, k, hv, hk, hm, hne, rfl⟩
  have hcolmem : col ∈ s.columns :=
    hcl c hc col (validPropagateCond_col_mem c inEqFuncNameMap col con hv)
  have hkn : k < s.columns.length :=
    lt_of_lt_of_le hk (row_len_le _ _ _ (isSquare_transitiveMatrixOf s))
  have hid : getColID s.columns col < s.columns.length :=
    getColID_lt _ _ hcolmem
  refine ⟨c, hc, col, con, k, hv, rfl, hne, ?_⟩
  have hgetid : s.columns.getD (getColID s.columns col) 0 = col :=
    getD_getColID _ _ hcolmem
  have hne2 := nodup_getD_ne s.columns k (getColID s.columns col) hnd hkn hid hne
  rw [hgetid] at hne2
  exact hne2

theorem prop_C10_witness :
    Expr.scalarFunc .gt (.column 1) (.constant (.vint 5)) ∈
      (initSolver [Expr.scalarFunc .gt (.constant (.vint 5)) (.column 0),
        Expr.scalarFunc .eq (.column 0) (.column 1)]).conditions.flatMap
        (replicateStep
          (initSolver [Expr.scalarFunc .gt (.constant (.vint 5)) (.column 0),
            Expr.scalarFunc .eq (.column 0) (.column 1)]).columns
          (transitiveMatrixOf (initSolver
            [Expr.scalarFunc .gt (.constant (.vint 5)) (.column 0),
             Expr.scalarFunc .eq (.column 0) (.column 1)]))) ∧
    ∃ c ∈ (initSolver [Expr.scalarFunc .gt (.constant (.vint 5)) (.column 0),
        Expr.scalarFunc .eq (.column 0) (.column 1)]).conditions,
      ∃ col con k,
        validPropagateCond c inEqFuncNameMap = some (col, con) ∧
        Expr.scalarFunc .gt (.column 1) (.constant (.vint 5)) =
          Expr.scalarFunc (funcNameOf c)
            (.column ((initSolver
              [Expr.scalarFunc .gt (.constant (.vint 5)) (.column 0),
               Expr.scalarFunc .eq (.column 0) (.column 1)]).columns.getD k 0))
            (.constant con) ∧
        k ≠ getColID (initSolver
          [Expr.scalarFunc .gt (.constant (.vint 5)) (.column 0),
           Expr.scalarFunc .eq (.column 0) (.column 1)]).columns col ∧
        (initSolver [Expr.scalarFunc .gt (.constant (.vint 5)) (.column 0),
          Expr.scalarFunc .eq (.column 0) (.column 1)]).columns.getD k 0 ≠
          col :=
  ⟨by decide,
    (prop_C10_synth_shape (initSolver
      [Expr.scalarFunc .gt (.constant (.vint 5)) (.column 0),
       Expr.scalarFunc .eq (.column 0) (.column 1)])
      (by decide) (by decide)).2 _ (by decide)⟩
